import Mathlib

/-!
Shallow embedding of the IMQS/cli package (src/cli.go): a command
registry with option parsing, validation, dispatch and help rendering.
Go strings are modelled as lists of characters. Printing and handler
invocation are modelled as an event trace; a Go runtime panic is
modelled as the `none` result of `App.run`. Handlers (Go `ExecFunc`
values) are opaque and modelled as natural-number identifiers; `nil`
handler fields are `Option.none`. The Go `map[string]string` of parsed
options is modelled as an association list with in-place overwrite and
first-match lookup (a faithful finite-map model; Go map iteration order
is unspecified, the embedding fixes insertion order).
-/

abbrev Str := List Char

def S (s : String) : Str := s.data

/-- Embeds the Go struct `Option` of src/cli.go (named `Opt` here since
`Option` is taken by Lean): `Key`, `Value` (empty marks a boolean
option), `Description`. -/
structure Opt where
  key : Str
  value : Str
  description : Str
deriving DecidableEq

/-- Embeds `findOption` of src/cli.go: linear scan, first match by key. -/
def findOption : List Opt → Str → Option Opt
  | [], _ => none
  | o :: rest, name => if o.key = name then some o else findOption rest name

/-- Embeds the Go struct `Command`: `Exec` is `none` when the Go field is nil. -/
structure Command where
  name : Str
  description : Str
  args : List Str
  options : List Opt
  exec : Option Nat
deriving DecidableEq

/-- Embeds the Go struct `App`. -/
structure App where
  description : Str
  defaultExec : Option Nat
  commands : List Command
  options : List Opt
deriving DecidableEq

/-- Embeds `strings.Index(s, "...") == 0`: does `s` start with three dots? -/
def startsWithEllipsis : Str → Bool
  | '.' :: '.' :: '.' :: _ => true
  | _ => false

/-- Embeds `isVarArgs` of src/cli.go: the declared argument list is
non-empty and its last entry starts with the variadic marker. -/
def isVarArgs (args : List Str) : Bool :=
  !args.isEmpty && startsWithEllipsis (args.getLastD [])

/-- Embeds Go `strings.Split(s, sep)` for a one-character separator:
split at every occurrence, keeping empty fields; the empty string
yields one empty field. -/
def splitOnChar (sep : Char) : Str → List Str
  | [] => [[]]
  | c :: cs =>
    if c = sep then [] :: splitOnChar sep cs
    else
      match splitOnChar sep cs with
      | [] => [[c]]
      | w :: ws => (c :: w) :: ws

/-- Embeds Go `strings.Join(xs, sep)` for a one-character separator. -/
def joinChar (sep : Char) : List Str → Str
  | [] => []
  | [s] => s
  | s :: ss => s ++ sep :: joinChar sep ss

/-- Embeds `Command.ShortDescription`: the description before the first newline. -/
def Command.shortDescription (c : Command) : Str :=
  (splitOnChar '\n' c.description).headD []

/-- Embeds `Command.ExtraDescription`: the description after the first newline. -/
def Command.extraDescription (c : Command) : Str :=
  joinChar '\n' (splitOnChar '\n' c.description).tail

/-- Embeds `App.find`: linear scan over registered commands, first match
by name. -/
def App.find (app : App) (name : Str) : Option Command :=
  findCmd app.commands name
where
  findCmd : List Command → Str → Option Command
    | [], _ => none
    | c :: rest, n => if c.name = n then some c else findCmd rest n

/-- Embeds `formatCmdArgs` of src/cli.go: a variadic last argument is
rendered as three numbered examples followed by an ellipsis. -/
def formatCmdArgs (args : List Str) : Str :=
  if isVarArgs args then
    joinChar ' ' args.dropLast ++ [' '] ++ (args.getLastD []).drop 3 ++ S "1 "
      ++ (args.getLastD []).drop 3 ++ S "2 " ++ (args.getLastD []).drop 3 ++ S "3..."
  else
    joinChar ' ' args

/-- Embeds the word-accumulation loop of `formatTextIntoLines`
(src/cli.go lines 244-255): append the word, flush when the line now
exceeds 55 characters, otherwise re-insert a single space unless the
word was the last one; a non-empty leftover line is emitted at the end. -/
def wrapLoop (line : Str) : List Str → List Str
  | [] => if line = [] then [] else [line]
  | w :: ws =>
    if (line ++ w).length > 55 then (line ++ w) :: wrapLoop [] ws
    else if ws = [] then wrapLoop (line ++ w) ws
    else wrapLoop (line ++ w ++ [' ']) ws

/-- Embeds `formatTextIntoLines` of src/cli.go (the `firstLineIndent`
and `otherLinesIndent` parameters of the Go function are unused there
and omitted here); the width constant is 55. -/
def formatTextIntoLines (text : Str) : List Str :=
  wrapLoop [] (splitOnChar ' ' text)

def spaces (n : Nat) : Str := List.replicate n ' '

/-- Embeds `writeBody` of src/cli.go: each printed line is one output
string, the first line indented by `firstLineIndent`, the rest by
`otherLinesIndent`. -/
def writeBody (text : Str) (firstLineIndent otherLinesIndent : Nat) : List Str :=
  match formatTextIntoLines text with
  | [] => []
  | l :: ls =>
    (spaces firstLineIndent ++ l ++ ['\n'])
      :: ls.map (fun l2 => spaces otherLinesIndent ++ l2 ++ ['\n'])

/-- Display length of one option row key, as in `findLongestOption` of
src/cli.go: `key=value` when value-carrying, `key` when boolean. -/
def optionDisplayLength (o : Opt) : Nat :=
  if o.value ≠ [] then o.key.length + 1 + o.value.length else o.key.length

/-- Embeds `findLongestOption` of src/cli.go. -/
def findLongestOption (options : List Opt) : Nat :=
  options.foldl (fun m o => max m (optionDisplayLength o)) 0

/-- Embeds Go `fmt.Sprintf` left-justified padding `%-Nv`. -/
def padRight (s : Str) (n : Nat) : Str :=
  s ++ List.replicate (n - s.length) ' '

/-- Embeds `formatOption` of src/cli.go with the format string
pre-instantiated at the listing's longest display key. -/
def formatOption (longest : Nat) (o : Opt) : Str :=
  if o.value ≠ [] then S "  -" ++ padRight (o.key ++ '=' :: o.value) longest
  else S "  -" ++ padRight o.key longest

/-- Embeds `showOptions` of src/cli.go: a blank line, then one padded
key (no newline of its own) followed by the word-wrapped description. -/
def showOptions (options : List Opt) : List Str :=
  S "\n" :: (options.map (fun o =>
    formatOption (findLongestOption options) o
      :: writeBody o.description 3 (6 + findLongestOption options))).flatten

/-- The command-help branch of `ShowHelp` (src/cli.go lines 320-329). -/
def cmdHelpOut (cmd : Command) : List Str :=
  [S "\n" ++ cmd.name ++ [' '] ++ formatCmdArgs cmd.args ++ S "\n\n"]
    ++ writeBody (cmd.shortDescription ++ ['.']) 2 2
    ++ (if cmd.extraDescription ≠ [] then writeBody cmd.extraDescription 2 2 else [])
    ++ (if cmd.options.isEmpty then [] else showOptions cmd.options)

/-- The application-help branch of `ShowHelp` (src/cli.go lines 330-346). -/
def appHelpOut (app : App) : List Str :=
  (if app.description ≠ [] then [S "\n" ++ app.description ++ S "\n\n"] else [])
    ++ app.commands.map (fun c =>
        S "  " ++ padRight c.name (app.commands.foldl (fun m c2 => max m c2.name.length) 0)
          ++ S "  " ++ c.shortDescription ++ S "\n")
    ++ (if app.options.isEmpty then [] else showOptions app.options)

/-- Embeds `App.ShowHelp` of src/cli.go. The method only reads its
receiver, so the embedding threads the `App` through unchanged and
returns the list of printed strings next to it. -/
def ShowHelpS (app : App) (name : Str) : List Str × App :=
  (match app.find name with
   | some cmd => cmdHelpOut cmd
   | none => appHelpOut app,
   app)

/-- One observable step of `App.Run`: a print, a diagnostic (carrying
the data interpolated into the Go format string), or the handler call. -/
inductive Event where
  | print (s : Str)
  | errUnrecognizedCommand (name : Str)
  | errArity (given : Nat) (name : Str) (pattern : Str)
  | errUnrecognizedOption (key : Str)
  | errOptionTakesNoValue (key : Str)
  | errOptionRequiresValue (key : Str) (placeholder : Str)
  | errNoExec (name : Str)
  | exec (handler : Nat) (cmd : Str) (args : List Str) (options : List (Str × Str))
deriving DecidableEq

def Event.isExec : Event → Bool
  | .exec _ _ _ _ => true
  | _ => false

def Event.isErrArity : Event → Bool
  | .errArity _ _ _ => true
  | _ => false

def Event.isValidationErr : Event → Bool
  | .print _ => false
  | .exec _ _ _ _ => false
  | _ => true

/-- First-match lookup in the parsed option map. -/
def lookupOpt : List (Str × Str) → Str → Option Str
  | [], _ => none
  | (k, v) :: rest, key => if k = key then some v else lookupOpt rest key

/-- Go map assignment `options[k] = v`: overwrite the existing entry for
`k` in place, else append. -/
def setOpt : List (Str × Str) → Str → Str → List (Str × Str)
  | [], k, v => [(k, v)]
  | (k2, v2) :: rest, k, v =>
    if k2 = k then (k, v) :: rest else (k2, v2) :: setOpt rest k v

/-- Embeds Go `strings.Index(arg, "=")` plus the two slicings of the
tokenizer: the part before the first `=` and, when `=` occurs, the part
after it. -/
def splitEq : Str → Str × Option Str
  | [] => ([], none)
  | c :: cs =>
    if c = '=' then ([], some cs)
    else ((splitEq cs).1.cons c, (splitEq cs).2)

/-- Parsed state of the tokenization loop of `App.Run`
(src/cli.go lines 145-167). -/
structure TokState where
  options : List (Str × Str)
  cmdName : Str
  cmdArgs : List Str
deriving DecidableEq

def initTok : TokState := ⟨[], [], []⟩

/-- One iteration of the tokenization loop. The Go code evaluates
`arg[0:1]`, which panics on an empty token: that is the `none` case. -/
def tokStep (st : TokState) : Str → Option TokState
  | [] => none
  | c :: rest =>
    if c = '-' then
      match (splitEq rest).2 with
      | some v => some { st with options := setOpt st.options (splitEq rest).1 v }
      | none => some { st with options := setOpt st.options (splitEq rest).1 [] }
    else
      if st.cmdName = [] then some { st with cmdName := c :: rest }
      else some { st with cmdArgs := st.cmdArgs ++ [c :: rest] }

/-- The tokenization loop of `App.Run` over the tokens after `argv[0]`:
a panic in one iteration aborts the whole loop. -/
def tokenize : List Str → TokState → Option TokState
  | [], st => some st
  | t :: ts, st => (tokStep st t).bind (tokenize ts)

/-- The help-dispatch condition of `App.Run` (src/cli.go lines 169-170). -/
def helpCond (st : TokState) : Bool :=
  decide (st.cmdName = []) || decide (st.cmdName = S "help")
    || (lookupOpt st.options (S "help")).isSome

/-- The name `ShowHelp` is called with on the help path
(src/cli.go lines 172-176). -/
def helpTarget (st : TokState) : Str :=
  match st.cmdArgs with
  | a :: _ => a
  | [] => st.cmdName

/-- Embeds the option-legality loop of `App.Run`
(src/cli.go lines 193-205): first violation wins. -/
def checkOptions (allOptions : List Opt) : List (Str × Str) → Option Event
  | [] => none
  | (key, value) :: rest =>
    match findOption allOptions key with
    | none => some (Event.errUnrecognizedOption key)
    | some opt =>
      if opt.value = [] ∧ value ≠ [] then some (Event.errOptionTakesNoValue opt.key)
      else if opt.value ≠ [] ∧ value = [] then
        some (Event.errOptionRequiresValue opt.key opt.value)
      else checkOptions allOptions rest

/-- The per-entry legality verdict, split out of `checkOptions` for the
short-circuit characterization. -/
def violation (allOptions : List Opt) (kv : Str × Str) : Option Event :=
  match findOption allOptions kv.1 with
  | none => some (Event.errUnrecognizedOption kv.1)
  | some opt =>
    if opt.value = [] ∧ kv.2 ≠ [] then some (Event.errOptionTakesNoValue opt.key)
    else if opt.value ≠ [] ∧ kv.2 = [] then
      some (Event.errOptionRequiresValue opt.key opt.value)
    else none

/-- Handler resolution of `App.Run` (src/cli.go lines 206-209): the
command's own `Exec` if set, else the application's `DefaultExec`. -/
def resolveExec (app : App) (cmd : Command) : Option Nat :=
  match cmd.exec with
  | some h => some h
  | none => app.defaultExec

/-- The part of `App.Run` after the arity check passed. -/
def afterArity (app : App) (cmd : Command) (st : TokState) : List Event :=
  match checkOptions (app.options ++ cmd.options) st.options with
  | some e => [e]
  | none =>
    match resolveExec app cmd with
    | none => [Event.errNoExec st.cmdName]
    | some h => [Event.exec h st.cmdName st.cmdArgs st.options]

/-- The non-help dispatch of `App.Run` (src/cli.go lines 180-217). -/
def dispatch (app : App) (st : TokState) : List Event :=
  match app.find st.cmdName with
  | none => [Event.errUnrecognizedCommand st.cmdName]
  | some cmd =>
    if isVarArgs cmd.args then
      if st.cmdArgs.length < cmd.args.length - 1 then
        [Event.errArity st.cmdArgs.length st.cmdName (formatCmdArgs cmd.args)]
      else afterArity app cmd st
    else
      if st.cmdArgs.length ≠ cmd.args.length then
        [Event.errArity st.cmdArgs.length st.cmdName (formatCmdArgs cmd.args)]
      else afterArity app cmd st

/-- Embeds `App.Run` of src/cli.go. Following spec section 9, the
process argument vector (`os.Args`, whose first entry is the program
name) is passed in explicitly. The result is the trace of observable
events, or `none` when the tokenization loop panics on an empty token. -/
def App.run (app : App) (argv : List Str) : Option (List Event) :=
  match tokenize (argv.drop 1) initTok with
  | none => none
  | some st =>
    if helpCond st then some ((ShowHelpS app (helpTarget st)).1.map Event.print)
    else some (dispatch app st)

/-- Modelled from the spec: `Run`'s integer exit code. The copy of
cli.go under src/ declares `Run` and `ExecFunc` without return values,
while the repository's own tests (src/cli_test.go) call an
int-returning `Run`; that returning variant is not under src/, so its
exit code is modelled from spec sections 4.2 and 6: the dispatcher
returns 1 for every internally detected validation failure, the
handler's own return value (obtained here from the handler-identifier
interpretation `ret`) on the success path, and a non-failure 0 on the
help path. -/
def exitOfEvents (ret : Nat → Str → List Str → List (Str × Str) → Int) :
    List Event → Int
  | [Event.exec h c a o] => ret h c a o
  | es => if es.any Event.isValidationErr then 1 else 0

/-- Modelled from the spec: the exit code of a run, `none` on panic
(see `exitOfEvents` for what is missing from src/). -/
def runCode (ret : Nat → Str → List Str → List (Str × Str) → Int)
    (app : App) (argv : List Str) : Option Int :=
  (app.run argv).map (exitOfEvents ret)

/-- An option token's parsed key/value pair; `none` for a token that
does not start with a hyphen (and for the empty token, which panics
before being classified). -/
def optValOf : Str → Option (Str × Str)
  | [] => none
  | c :: rest =>
    if c = '-' then some ((splitEq rest).1, ((splitEq rest).2).getD [])
    else none

/-- Is the token routed to the option branch of the tokenizer? -/
def isOptTok : Str → Bool
  | [] => false
  | c :: _ => c = '-'

/-- The non-option tokens, in input order. -/
def nonOpts (ts : List Str) : List Str :=
  ts.filter (fun t => !isOptTok t)

/-- The value of the last option token for key `k`, if any. -/
def lastValueFor (l : List (Str × Str)) (k : Str) : Option Str :=
  ((l.filter (fun p => decide (p.1 = k))).getLast?).map Prod.snd

/-- The spec-side word-wrap state: the current line as its list of
words; the rendered line is the words joined by single spaces. -/
def wrapGroups (cur : List Str) : List Str → List (List Str)
  | [] => if joinChar ' ' cur = [] then [] else [cur]
  | w :: ws =>
    if (joinChar ' ' (cur ++ [w])).length > 55 then (cur ++ [w]) :: wrapGroups [] ws
    else wrapGroups (cur ++ [w]) ws

/-- Written from the amended wording of the word-wrap claim: words are
appended to the current line with one space between consecutive words,
and the width check happens after appending — a line that, with the
word just appended, exceeds 55 characters is flushed whole (word
included), the next line starting empty; a non-empty remainder is
emitted at the end; words are never split. -/
def wrapSpecAmended (text : Str) : List Str :=
  (wrapGroups [] (splitOnChar ' ' text)).map (joinChar ' ')

/-- The rendered line of the wrap state entering an iteration: empty
for an empty group, otherwise the joined words followed by the
re-inserted single space. -/
def lineOf : List Str → Str
  | [] => []
  | cur => joinChar ' ' cur ++ [' ']

/-- The `start` command registered by src/cli_test.go. -/
def startCmd : Command :=
  { name := S "start"
    description := S "Start the application"
    args := [S "port", S "root-directory"]
    options := []
    exec := none }

/-- The `initialize` command registered by src/cli_test.go: a boolean
option `clean` and a value option `strength`. -/
def initializeCmd : Command :=
  { name := S "initialize"
    description := S "Initialize a directory\nThis will setup the necessary structures in 'directory'."
    args := [S "root-directory"]
    options :=
      [ ⟨S "clean", [], S "Clean all files"⟩
      , ⟨S "strength", S "howstrong", S "Strong values clean more files"⟩ ]
    exec := none }

/-- The `varargs` command registered by src/cli_test.go: one mandatory
argument followed by a variadic one. -/
def varargsCmd : Command :=
  { name := S "varargs"
    description := S "Demonstrate variable number of arguments"
    args := [S "param1", S "...things"]
    options := []
    exec := none }

/-- The example application of src/cli_test.go and src/example_test.go;
the default handler is handler 0, no command has its own handler. -/
def exampleApp : App :=
  { description := S "myapp [options] command"
    defaultExec := some 0
    commands := [startCmd, initializeCmd, varargsCmd]
    options := [] }

/-- The argument vector of the `start` scenario of src/cli_test.go. -/
def argvA : List Str := [S "myapp", S "start", S "/folder1/folder2", S "8669"]

/-- The argument vector of the `initialize` scenario of src/cli_test.go
(spec scenario B). -/
def argvB : List Str := [S "myapp", S "initialize", S "-clean", S "strength=2"]

/-- An invocation supplying `-strength` without a value against the
value-declared `strength` option (spec scenario D). -/
def argvD : List Str := [S "myapp", S "initialize", S "-strength", S "somedir"]

/-- An invocation of the reserved `help` command with one positional
argument. -/
def argvH : List Str := [S "myapp", S "help", S "initialize"]

def word30a : Str := List.replicate 30 'a'

def word30b : Str := List.replicate 30 'b'

/-! ### Helper lemmas about the option map -/

theorem lookupOpt_setOpt (m : List (Str × Str)) (k v q : Str) :
    lookupOpt (setOpt m k v) q = if k = q then some v else lookupOpt m q := by
  induction m with
  | nil => simp [setOpt, lookupOpt]
  | cons p rest ih =>
    obtain ⟨k2, v2⟩ := p
    by_cases h2 : k2 = k
    · subst h2
      by_cases hq : k2 = q
      · subst hq
        simp [setOpt, lookupOpt]
      · simp [setOpt, lookupOpt, hq]
    · by_cases hq : k2 = q
      · subst hq
        have hk : ¬ k = k2 := fun hh => h2 hh.symm
        simp [setOpt, lookupOpt, h2, hk]
      · simp [setOpt, lookupOpt, h2, hq, ih]

theorem lastValueFor_cons (p : Str × Str) (l : List (Str × Str)) (k : Str) :
    lastValueFor (p :: l) k
      = (lastValueFor l k).or (if p.1 = k then some p.2 else none) := by
  by_cases hp : p.1 = k
  · have hfil : (p :: l).filter (fun q => decide (q.1 = k))
        = p :: l.filter (fun q => decide (q.1 = k)) := by
      simp [List.filter_cons, hp]
    cases hF : (l.filter (fun q => decide (q.1 = k))) with
    | nil => simp [lastValueFor, hfil, hF, hp, Option.or]
    | cons b t =>
      have hs : (b :: t).getLast?.isSome := by
        rw [List.getLast?_isSome]
        exact List.cons_ne_nil b t
      obtain ⟨x, hx⟩ := Option.isSome_iff_exists.mp hs
      simp [lastValueFor, hfil, hF, List.getLast?_cons_cons, hx, Option.or]
  · have hfil : (p :: l).filter (fun q => decide (q.1 = k))
        = l.filter (fun q => decide (q.1 = k)) := by
      simp [List.filter_cons, hp]
    simp [lastValueFor, hfil, hp, Option.or_none]

theorem lastValueFor_nil (k : Str) : lastValueFor [] k = none := rfl

/-! ### Helper lemmas about tokenization -/

theorem splitEq_no_eq (key : Str) (h : '=' ∉ key) : splitEq key = (key, none) := by
  induction key with
  | nil => rfl
  | cons c cs ih =>
    have hc : c ≠ '=' := fun hc => h (hc ▸ List.mem_cons_self c cs)
    have hcs : '=' ∉ cs := fun hm => h (List.mem_cons_of_mem c hm)
    simp [splitEq, hc, ih hcs]

theorem splitEq_eq (key value : Str) (h : '=' ∉ key) :
    splitEq (key ++ '=' :: value) = (key, some value) := by
  induction key with
  | nil => simp [splitEq]
  | cons c cs ih =>
    have hc : c ≠ '=' := fun hc => h (hc ▸ List.mem_cons_self c cs)
    have hcs : '=' ∉ cs := fun hm => h (List.mem_cons_of_mem c hm)
    simp [splitEq, hc, ih hcs]

theorem optValOf_none_iff (t : Str) : optValOf t = none ↔ isOptTok t = false := by
  cases t with
  | nil => simp [optValOf, isOptTok]
  | cons c rest =>
    by_cases hc : c = '-' <;> simp [optValOf, isOptTok, hc]

theorem tokStep_opt (st : TokState) (t k v : Str) (h : optValOf t = some (k, v)) :
    tokStep st t = some ⟨setOpt st.options k v, st.cmdName, st.cmdArgs⟩ := by
  cases t with
  | nil => simp [optValOf] at h
  | cons c rest =>
    by_cases hc : c = '-'
    · have ho : optValOf (c :: rest)
          = some ((splitEq rest).1, ((splitEq rest).2).getD []) := by
        simp [optValOf, hc]
      rw [ho] at h
      simp only [Option.some.injEq, Prod.mk.injEq] at h
      obtain ⟨hk, hv⟩ := h
      subst hk
      subst hv
      obtain ⟨mo, mn, ma⟩ := st
      cases hsp : (splitEq rest).2 <;> simp [tokStep, hsp, hc]
    · simp [optValOf, hc] at h

theorem tokStep_nonopt_first (st : TokState) (t : Str)
    (hno : isOptTok t = false) (hne : t ≠ []) (hcn : st.cmdName = []) :
    tokStep st t = some ⟨st.options, t, st.cmdArgs⟩ := by
  cases t with
  | nil => exact absurd rfl hne
  | cons c rest =>
    simp only [isOptTok, decide_eq_false_iff_not] at hno
    cases st
    simp_all [tokStep]

theorem tokStep_nonopt_rest (st : TokState) (t : Str)
    (hno : isOptTok t = false) (hne : t ≠ []) (hcn : st.cmdName ≠ []) :
    tokStep st t = some ⟨st.options, st.cmdName, st.cmdArgs ++ [t]⟩ := by
  cases t with
  | nil => exact absurd rfl hne
  | cons c rest =>
    simp only [isOptTok, decide_eq_false_iff_not] at hno
    cases st
    simp_all [tokStep]

theorem tokenize_options (ts : List Str) (st st2 : TokState)
    (h : tokenize ts st = some st2) (k : Str) :
    lookupOpt st2.options k
      = (lastValueFor (ts.filterMap optValOf) k).or (lookupOpt st.options k) := by
  induction ts generalizing st with
  | nil =>
    simp only [tokenize, Option.some.injEq] at h
    subst h
    simp [lastValueFor_nil, Option.or]
  | cons t ts ih =>
    simp only [tokenize] at h
    cases ho : optValOf t with
    | some p =>
      obtain ⟨k0, v0⟩ := p
      rw [tokStep_opt st t k0 v0 ho, Option.some_bind] at h
      have hrec := ih _ h
      simp only [lookupOpt_setOpt] at hrec
      rw [hrec]
      simp only [List.filterMap_cons, ho, lastValueFor_cons, Option.or_assoc]
      congr 1
      by_cases hk : k0 = k <;> simp [hk, Option.or]
    | none =>
      cases t with
      | nil =>
        rw [show tokStep st [] = none from rfl, Option.none_bind] at h
        exact Option.noConfusion h
      | cons c rest =>
        have hno : isOptTok (c :: rest) = false := (optValOf_none_iff _).mp ho
        by_cases hcn : st.cmdName = []
        · rw [tokStep_nonopt_first st _ hno (by simp) hcn, Option.some_bind] at h
          have hrec := ih _ h
          rw [hrec]
          simp only [List.filterMap_cons, ho]
        · rw [tokStep_nonopt_rest st _ hno (by simp) hcn, Option.some_bind] at h
          have hrec := ih _ h
          rw [hrec]
          simp only [List.filterMap_cons, ho]

theorem tokenize_cmdline_ne (ts : List Str) (m : List (Str × Str)) (n : Str)
    (a : List Str) (st2 : TokState) (hn : n ≠ [])
    (h : tokenize ts ⟨m, n, a⟩ = some st2) :
    st2.cmdName = n ∧ st2.cmdArgs = a ++ nonOpts ts := by
  induction ts generalizing m a with
  | nil =>
    simp only [tokenize, Option.some.injEq] at h
    subst h
    simp [nonOpts]
  | cons t ts ih =>
    simp only [tokenize] at h
    cases t with
    | nil =>
      rw [show tokStep ⟨m, n, a⟩ [] = none from rfl, Option.none_bind] at h
      exact Option.noConfusion h
    | cons c rest =>
      by_cases hc : c = '-'
      · have ho : optValOf (c :: rest)
            = some ((splitEq rest).1, ((splitEq rest).2).getD []) := by
          simp [optValOf, hc]
        rw [tokStep_opt _ _ _ _ ho, Option.some_bind] at h
        have := ih _ _ h
        have hfil : nonOpts ((c :: rest) :: ts) = nonOpts ts := by
          simp [nonOpts, List.filter_cons, isOptTok, hc]
        rw [hfil]
        exact this
      · have hno : isOptTok (c :: rest) = false := by simp [isOptTok, hc]
        rw [tokStep_nonopt_rest _ _ hno (by simp) hn, Option.some_bind] at h
        have := ih _ _ h
        have hfil : nonOpts ((c :: rest) :: ts) = (c :: rest) :: nonOpts ts := by
          simp [nonOpts, List.filter_cons, isOptTok, hc]
        rw [hfil]
        refine ⟨this.1, ?_⟩
        rw [this.2]
        simp

theorem tokenize_cmdline (ts : List Str) (m : List (Str × Str)) (st2 : TokState)
    (h : tokenize ts ⟨m, [], []⟩ = some st2) :
    (st2.cmdName = [] ∧ st2.cmdArgs = [] ∧ nonOpts ts = [])
      ∨ (st2.cmdName ≠ [] ∧ nonOpts ts = st2.cmdName :: st2.cmdArgs) := by
  induction ts generalizing m with
  | nil =>
    simp only [tokenize, Option.some.injEq] at h
    subst h
    left
    simp [nonOpts]
  | cons t ts ih =>
    simp only [tokenize] at h
    cases t with
    | nil =>
      rw [show tokStep ⟨m, [], []⟩ [] = none from rfl, Option.none_bind] at h
      exact Option.noConfusion h
    | cons c rest =>
      by_cases hc : c = '-'
      · have ho : optValOf (c :: rest)
            = some ((splitEq rest).1, ((splitEq rest).2).getD []) := by
          simp [optValOf, hc]
        rw [tokStep_opt _ _ _ _ ho, Option.some_bind] at h
        have hfil : nonOpts ((c :: rest) :: ts) = nonOpts ts := by
          simp [nonOpts, List.filter_cons, isOptTok, hc]
        rw [hfil]
        exact ih _ h
      · have hno : isOptTok (c :: rest) = false := by simp [isOptTok, hc]
        rw [tokStep_nonopt_first _ _ hno (by simp) rfl, Option.some_bind] at h
        have := tokenize_cmdline_ne ts m (c :: rest) [] st2 (by simp) h
        have hfil : nonOpts ((c :: rest) :: ts) = (c :: rest) :: nonOpts ts := by
          simp [nonOpts, List.filter_cons, isOptTok, hc]
        right
        refine ⟨by simp [this.1], ?_⟩
        rw [hfil, this.1, this.2]
        simp

/-! ### Helper lemmas for the word-wrap refinement -/

theorem joinChar_append_last (sep : Char) (s w : Str) (ss : List Str) :
    joinChar sep ((s :: ss) ++ [w]) = joinChar sep (s :: ss) ++ sep :: w := by
  induction ss generalizing s with
  | nil => simp [joinChar]
  | cons s2 ss ih =>
    have h1 : (s :: s2 :: ss) ++ [w] = s :: ((s2 :: ss) ++ [w]) := by simp
    have h2 : (s2 :: ss) ++ [w] = s2 :: (ss ++ [w]) := by simp
    rw [h1, h2,
      show joinChar sep (s :: s2 :: (ss ++ [w]))
          = s ++ sep :: joinChar sep (s2 :: (ss ++ [w])) from rfl,
      ← h2, ih s2,
      show joinChar sep (s :: s2 :: ss) = s ++ sep :: joinChar sep (s2 :: ss) from rfl]
    simp

theorem lineOf_cons (s : Str) (ss : List Str) :
    lineOf (s :: ss) = joinChar ' ' (s :: ss) ++ [' '] := rfl

theorem lineOf_append (cur : List Str) (w : Str) :
    lineOf cur ++ w = joinChar ' ' (cur ++ [w]) := by
  cases cur with
  | nil => simp [lineOf, joinChar]
  | cons s ss =>
    rw [lineOf_cons, joinChar_append_last]
    simp

theorem wrapLoop_eq_groups (ws : List Str) (cur : List Str)
    (h : cur = [] ∨ ws ≠ []) :
    wrapLoop (lineOf cur) ws = (wrapGroups cur ws).map (joinChar ' ') := by
  induction ws generalizing cur with
  | nil =>
    rcases h with h | h
    · subst h
      rfl
    · exact absurd rfl h
  | cons w ws ih =>
    simp only [wrapLoop, wrapGroups, lineOf_append]
    by_cases hlen : (joinChar ' ' (cur ++ [w])).length > 55
    · simp only [if_pos hlen, List.map_cons]
      congr 1
      exact ih [] (Or.inl rfl)
    · simp only [if_neg hlen]
      by_cases hws : ws = []
      · subst hws
        by_cases hX : joinChar ' ' (cur ++ [w]) = []
          <;> simp [wrapLoop, wrapGroups, hX]
      · simp only [if_neg hws]
        have hne : cur ++ [w] ≠ [] := by simp
        have hlof : lineOf (cur ++ [w]) = joinChar ' ' (cur ++ [w]) ++ [' '] := by
          cases hcc : cur ++ [w] with
          | nil => exact absurd hcc hne
          | cons a l => rw [lineOf_cons]
        rw [← hlof]
        exact ih (cur ++ [w]) (Or.inr hws)

theorem checkOptions_eq_head (all : List Opt) (m : List (Str × Str)) :
    checkOptions all m = (m.filterMap (violation all)).head? := by
  induction m with
  | nil => rfl
  | cons p rest ih =>
    obtain ⟨key, value⟩ := p
    cases hf : findOption all key with
    | none => simp [checkOptions, violation, List.filterMap_cons, hf]
    | some opt =>
      by_cases h1 : opt.value = [] ∧ value ≠ []
      · simp [checkOptions, violation, List.filterMap_cons, hf, h1]
      · by_cases h2 : opt.value ≠ [] ∧ value = []
        · simp [checkOptions, violation, List.filterMap_cons, hf, h1, h2]
        · simp [checkOptions, violation, List.filterMap_cons, hf, h1, h2, ih]

theorem checkOptions_some_flags (all : List Opt) (m : List (Str × Str)) (e : Event)
    (h : checkOptions all m = some e) :
    e.isExec = false ∧ e.isErrArity = false ∧ e.isValidationErr = true := by
  induction m with
  | nil => exact Option.noConfusion h
  | cons p rest ih =>
    obtain ⟨key, value⟩ := p
    cases hf : findOption all key with
    | none =>
      simp only [checkOptions, hf, Option.some.injEq] at h
      subst h
      exact ⟨rfl, rfl, rfl⟩
    | some opt =>
      by_cases h1 : opt.value = [] ∧ value ≠ []
      · obtain ⟨ha, hb⟩ := h1
        simp [checkOptions, hf, ha, hb] at h
        subst h
        exact ⟨rfl, rfl, rfl⟩
      · by_cases h2 : opt.value ≠ [] ∧ value = []
        · obtain ⟨ha, hb⟩ := h2
          simp [checkOptions, hf, h1, ha, hb] at h
          subst h
          exact ⟨rfl, rfl, rfl⟩
        · simp only [checkOptions, hf, h1, h2, if_neg] at h
          exact ih h

theorem all_print_no_exec (l : List Str) :
    ((l.map Event.print).all fun e => !e.isExec) = true := by
  induction l with
  | nil => rfl
  | cons s l ih => simp [Event.isExec, ih]

theorem afterArity_no_arity (app : App) (cmd : Command) (st : TokState) :
    ((afterArity app cmd st).all fun e => !e.isErrArity) = true := by
  unfold afterArity
  cases hc : checkOptions (app.options ++ cmd.options) st.options with
  | some e =>
    have := checkOptions_some_flags _ _ _ hc
    simp [this.2.1]
  | none => cases hr : resolveExec app cmd <;> simp [Event.isErrArity]

theorem tokStep_ne_none (st : TokState) (c : Char) (rest : Str) :
    tokStep st (c :: rest) ≠ none := by
  simp only [tokStep]
  split
  · split <;> simp
  · split <;> simp

theorem tokenize_none_iff (ts : List Str) (st : TokState) :
    tokenize ts st = none ↔ [] ∈ ts := by
  induction ts generalizing st with
  | nil => simp [tokenize]
  | cons t ts ih =>
    simp only [tokenize]
    cases t with
    | nil => simp [tokStep]
    | cons c rest =>
      cases h1 : tokStep st (c :: rest) with
      | none => exact absurd h1 (tokStep_ne_none st c rest)
      | some st1 =>
        rw [Option.some_bind]
        simp only [ih st1, List.mem_cons]
        constructor
        · exact Or.inr
        · rintro (h | h)
          · exact absurd h.symm (List.cons_ne_nil c rest)
          · exact h

/-! ### Run-level helper lemmas -/

theorem lastValueFor_isSome (l : List (Str × Str)) (k : Str) :
    (lastValueFor l k).isSome = true ↔ k ∈ l.map Prod.fst := by
  induction l with
  | nil => simp [lastValueFor_nil]
  | cons p l ih =>
    rw [lastValueFor_cons]
    by_cases hp : p.1 = k
    · simp [hp, Option.isSome_or]
    · have hp2 : ¬ k = p.1 := fun hh => hp hh.symm
      simp [hp, hp2, Option.or_none, ih]

theorem run_dispatch (app : App) (argv : List Str) (st : TokState)
    (htok : tokenize (argv.drop 1) initTok = some st)
    (hhelp : helpCond st = false) :
    app.run argv = some (dispatch app st) := by
  unfold App.run
  rw [htok]
  simp [hhelp]

theorem run_help (app : App) (argv : List Str) (st : TokState)
    (htok : tokenize (argv.drop 1) initTok = some st)
    (hhelp : helpCond st = true) :
    app.run argv = some ((ShowHelpS app (helpTarget st)).1.map Event.print) := by
  unfold App.run
  rw [htok]
  simp [hhelp]

theorem dispatch_afterArity (app : App) (st : TokState) (cmd : Command)
    (hfind : app.find st.cmdName = some cmd)
    (hvar : isVarArgs cmd.args = true → cmd.args.length - 1 ≤ st.cmdArgs.length)
    (hfix : isVarArgs cmd.args = false → st.cmdArgs.length = cmd.args.length) :
    dispatch app st = afterArity app cmd st := by
  unfold dispatch
  rw [hfind]
  cases hv : isVarArgs cmd.args
  · simp [hv, hfix hv]
  · simp [hv, Nat.not_lt.mpr (hvar hv)]

/-! ### The claims -/

/-- Claim C1: for every invocation whose positional-argument count
satisfies the command's arity rule and whose supplied option keys all
pass the legality check, `Run` invokes the resolved handler (the
command's own `Exec` if set, else the `App`'s `DefaultExec`) exactly
once, with the parsed command name, the positional arguments in input
order, and an option mapping whose key set is exactly the supplied
keys. -/
theorem claim_C1 (app : App) (argv : List Str) (st : TokState) (cmd : Command) (h : Nat)
    (htok : tokenize (argv.drop 1) initTok = some st)
    (hhelp : helpCond st = false)
    (hfind : app.find st.cmdName = some cmd)
    (hvar : isVarArgs cmd.args = true → cmd.args.length - 1 ≤ st.cmdArgs.length)
    (hfix : isVarArgs cmd.args = false → st.cmdArgs.length = cmd.args.length)
    (hopts : checkOptions (app.options ++ cmd.options) st.options = none)
    (hexec : resolveExec app cmd = some h) :
    app.run argv = some [Event.exec h st.cmdName st.cmdArgs st.options]
      ∧ st.cmdName :: st.cmdArgs = nonOpts (argv.drop 1)
      ∧ ∀ k, (lookupOpt st.options k).isSome = true
          ↔ k ∈ ((argv.drop 1).filterMap optValOf).map Prod.fst := by
  have hname : ¬ st.cmdName = [] := by
    simp only [helpCond, Bool.or_eq_false_iff, decide_eq_false_iff_not] at hhelp
    exact hhelp.1.1
  refine ⟨?_, ?_, ?_⟩
  · rw [run_dispatch app argv st htok hhelp,
      dispatch_afterArity app st cmd hfind hvar hfix]
    simp [afterArity, hopts, hexec]
  · have htok2 : tokenize (argv.drop 1) ⟨[], [], []⟩ = some st := htok
    rcases tokenize_cmdline (argv.drop 1) [] st htok2 with ⟨hc, _, _⟩ | ⟨_, heq⟩
    · exact absurd hc hname
    · exact heq.symm
  · intro k
    have htok2 : tokenize (argv.drop 1) ⟨[], [], []⟩ = some st := htok
    rw [tokenize_options (argv.drop 1) _ st htok2 k,
      show lookupOpt (TokState.options ⟨[], [], []⟩) k = none from rfl,
      Option.or_none]
    exact lastValueFor_isSome _ k

/-- Claim C1 witness: the `start` scenario of src/cli_test.go
dispatches to the default handler with both positional arguments. -/
theorem claim_C1_witness :
    tokenize (argvA.drop 1) initTok
        = some ⟨[], S "start", [S "/folder1/folder2", S "8669"]⟩
      ∧ (exampleApp.run argvA
          = some [Event.exec 0 (S "start") [S "/folder1/folder2", S "8669"] []]
        ∧ (S "start") :: [S "/folder1/folder2", S "8669"] = nonOpts (argvA.drop 1)
        ∧ ∀ k, (lookupOpt ([] : List (Str × Str)) k).isSome = true
            ↔ k ∈ ((argvA.drop 1).filterMap optValOf).map Prod.fst) :=
  ⟨by decide,
   claim_C1 exampleApp argvA ⟨[], S "start", [S "/folder1/folder2", S "8669"]⟩
     startCmd 0 (by decide) (by decide) (by decide) (by decide) (by decide)
     (by decide) (by decide)⟩

/-- Claim C2: tokenization maps `-key=value` to the entry
`{key: value}`, a bare `-key` to `{key: ""}`, leaves unsupplied keys
absent from the mapping, and lets the last occurrence of a repeated key
win without error. -/
theorem claim_C2 (ts : List Str) (st : TokState)
    (htok : tokenize ts initTok = some st) :
    (∀ k, lookupOpt st.options k
        = (((ts.filterMap optValOf).filter fun p => decide (p.1 = k)).getLast?).map
            Prod.snd)
      ∧ (∀ key value, '=' ∉ key →
          optValOf (('-' :: key) ++ '=' :: value) = some (key, value))
      ∧ (∀ key, '=' ∉ key → optValOf ('-' :: key) = some (key, [])) := by
  refine ⟨?_, ?_, ?_⟩
  · intro k
    have htok2 : tokenize ts ⟨[], [], []⟩ = some st := htok
    rw [tokenize_options ts _ st htok2 k,
      show lookupOpt (TokState.options ⟨[], [], []⟩) k = none from rfl,
      Option.or_none]
    rfl
  · intro key value hk
    rw [show ('-' :: key) ++ '=' :: value = '-' :: (key ++ '=' :: value) from rfl]
    simp [optValOf, splitEq_eq key value hk]
  · intro key hk
    simp [optValOf, splitEq_no_eq key hk]

/-- Claim C2 witness: with tokens `-a=1 -b -a=2` the key `a` maps to
the last supplied value `2`. -/
theorem claim_C2_witness :
    tokenize [S "-a=1", S "-b", S "-a=2"] initTok
        = some ⟨[(S "a", S "2"), (S "b", [])], [], []⟩
      ∧ lookupOpt [(S "a", S "2"), (S "b", [])] (S "a")
          = ((([S "-a=1", S "-b", S "-a=2"].filterMap optValOf).filter
              fun p => decide (p.1 = S "a")).getLast?).map Prod.snd :=
  ⟨by decide,
   (claim_C2 [S "-a=1", S "-b", S "-a=2"] ⟨[(S "a", S "2"), (S "b", [])], [], []⟩
     (by decide)).1 (S "a")⟩

/-- Claim C3: when the parsed command name is empty or `help`, or the
option map contains the key `help`, `Run` renders help (for the first
positional argument if one was captured, else for the parsed command
name, application-level help when nothing matches) and returns without
invoking any handler. -/
theorem claim_C3 (app : App) (argv : List Str) (st : TokState)
    (htok : tokenize (argv.drop 1) initTok = some st)
    (hhelp : helpCond st = true) :
    app.run argv = some ((ShowHelpS app (helpTarget st)).1.map Event.print)
      ∧ (((ShowHelpS app (helpTarget st)).1.map Event.print).all fun e => !e.isExec)
          = true
      ∧ (app.find (helpTarget st) = none
          → (ShowHelpS app (helpTarget st)).1 = appHelpOut app) := by
  refine ⟨run_help app argv st htok hhelp, all_print_no_exec _, fun hf => ?_⟩
  simp [ShowHelpS, hf]

/-- Claim C3 witness: `myapp help initialize` renders the detailed help
of `initialize` and invokes no handler. -/
theorem claim_C3_witness :
    tokenize (argvH.drop 1) initTok = some ⟨[], S "help", [S "initialize"]⟩
      ∧ helpCond ⟨[], S "help", [S "initialize"]⟩ = true
      ∧ exampleApp.run argvH
          = some ((ShowHelpS exampleApp
              (helpTarget ⟨[], S "help", [S "initialize"]⟩)).1.map Event.print) :=
  ⟨by decide, by decide,
   (claim_C3 exampleApp argvH ⟨[], S "help", [S "initialize"]⟩
     (by decide) (by decide)).1⟩

/-- Claim C4: a variadic command proceeds past the arity check iff the
positional count is at least the declared count minus one, a
non-variadic command iff the count is exactly the declared count; on a
mismatch a usage message is printed and no handler is invoked. -/
theorem claim_C4 (app : App) (st : TokState) (cmd : Command)
    (hfind : app.find st.cmdName = some cmd) :
    ((isVarArgs cmd.args = true ∧ st.cmdArgs.length < cmd.args.length - 1)
        ∨ (isVarArgs cmd.args = false ∧ st.cmdArgs.length ≠ cmd.args.length)
      → dispatch app st
          = [Event.errArity st.cmdArgs.length st.cmdName (formatCmdArgs cmd.args)]
        ∧ ((dispatch app st).all fun e => !e.isExec) = true)
    ∧ (¬ ((isVarArgs cmd.args = true ∧ st.cmdArgs.length < cmd.args.length - 1)
        ∨ (isVarArgs cmd.args = false ∧ st.cmdArgs.length ≠ cmd.args.length))
      → ((dispatch app st).all fun e => !e.isErrArity) = true) := by
  constructor
  · rintro (⟨hv, hlt⟩ | ⟨hv, hne⟩)
    · refine ⟨by simp [dispatch, hfind, hv, hlt], ?_⟩
      simp [dispatch, hfind, hv, hlt, Event.isExec]
    · refine ⟨by simp [dispatch, hfind, hv, hne], ?_⟩
      simp [dispatch, hfind, hv, hne, Event.isExec]
  · intro hnb
    cases hv : isVarArgs cmd.args
    · have heq : st.cmdArgs.length = cmd.args.length :=
        not_not.mp (fun hne => hnb (Or.inr ⟨hv, hne⟩))
      simp [dispatch, hfind, hv, heq, afterArity_no_arity]
    · have hnlt : ¬ st.cmdArgs.length < cmd.args.length - 1 :=
        fun hlt => hnb (Or.inl ⟨hv, hlt⟩)
      simp [dispatch, hfind, hv, hnlt, afterArity_no_arity]

/-- Claim C4 witness: `varargs`, declared with args
`["param1", "...things"]`, fails the arity check on zero positional
arguments. -/
theorem claim_C4_witness :
    exampleApp.find (S "varargs") = some varargsCmd
      ∧ dispatch exampleApp ⟨[], S "varargs", []⟩
          = [Event.errArity 0 (S "varargs") (formatCmdArgs varargsCmd.args)] :=
  ⟨by decide,
   ((claim_C4 exampleApp ⟨[], S "varargs", []⟩ varargsCmd (by decide)).1
     (Or.inl ⟨by decide, by decide⟩)).1⟩

/-- Claim C5: in a non-help dispatch that passed the arity check, an
option key that matches no entry of the effective option set (global
options followed by command-local options, first match by key), or a
boolean-declared option supplied with a non-empty value, or a
value-declared option supplied with an empty value, makes the run fail
with that specific diagnostic, the first violation in iteration order
short-circuiting the rest; no handler is invoked. -/
theorem claim_C5 (app : App) (argv : List Str) (st : TokState) (cmd : Command)
    (e : Event)
    (htok : tokenize (argv.drop 1) initTok = some st)
    (hhelp : helpCond st = false)
    (hfind : app.find st.cmdName = some cmd)
    (hvar : isVarArgs cmd.args = true → cmd.args.length - 1 ≤ st.cmdArgs.length)
    (hfix : isVarArgs cmd.args = false → st.cmdArgs.length = cmd.args.length)
    (hviol : (st.options.filterMap (violation (app.options ++ cmd.options))).head?
        = some e) :
    app.run argv = some [e]
      ∧ e.isExec = false
      ∧ checkOptions (app.options ++ cmd.options) st.options = some e := by
  have hch : checkOptions (app.options ++ cmd.options) st.options = some e := by
    rw [checkOptions_eq_head]
    exact hviol
  have flags := checkOptions_some_flags _ _ _ hch
  refine ⟨?_, flags.1, hch⟩
  rw [run_dispatch app argv st htok hhelp,
    dispatch_afterArity app st cmd hfind hvar hfix]
  simp [afterArity, hch]

/-- Claim C5 witness: spec scenario D, `-strength` with no value against
the value-declared `strength` option, fails with the requires-value
diagnostic and no handler runs. -/
theorem claim_C5_witness :
    ((⟨[(S "strength", [])], S "initialize", [S "somedir"]⟩ :
          TokState).options.filterMap
        (violation (exampleApp.options ++ initializeCmd.options))).head?
        = some (Event.errOptionRequiresValue (S "strength") (S "howstrong"))
      ∧ exampleApp.run argvD
          = some [Event.errOptionRequiresValue (S "strength") (S "howstrong")] :=
  ⟨by decide,
   (claim_C5 exampleApp argvD ⟨[(S "strength", [])], S "initialize", [S "somedir"]⟩
     initializeCmd (Event.errOptionRequiresValue (S "strength") (S "howstrong"))
     (by decide) (by decide) (by decide) (by decide) (by decide) (by decide)).1⟩

/-- Claim C6: `Run` returns 1 for every internally detected validation
failure and, on the success path, the invoked handler's own integer
return value (the exit code is modelled from the spec, see
`exitOfEvents`). -/
theorem claim_C6 (ret : Nat → Str → List Str → List (Str × Str) → Int)
    (app : App) (argv : List Str) (es : List Event)
    (hrun : app.run argv = some es) :
    (∀ e, es = [e] → e.isValidationErr = true → runCode ret app argv = some 1)
      ∧ (∀ h c a o, es = [Event.exec h c a o]
          → runCode ret app argv = some (ret h c a o)) := by
  constructor
  · intro e hes hval
    subst hes
    unfold runCode
    rw [hrun]
    cases e <;> simp_all [exitOfEvents, Event.isValidationErr]
  · intro h c a o hes
    subst hes
    unfold runCode
    rw [hrun]
    simp [exitOfEvents]

/-- Claim C6 witness: the `start` scenario returns the handler's own
return value (here the constant 7). -/
theorem claim_C6_witness :
    exampleApp.run argvA
        = some [Event.exec 0 (S "start") [S "/folder1/folder2", S "8669"] []]
      ∧ runCode (fun _ _ _ _ => (7 : Int)) exampleApp argvA = some 7 :=
  ⟨by decide,
   (claim_C6 (fun _ _ _ _ => (7 : Int)) exampleApp argvA
     [Event.exec 0 (S "start") [S "/folder1/folder2", S "8669"] []]
     (by decide)).2 0 (S "start") [S "/folder1/folder2", S "8669"] [] rfl⟩

/-- Claim C7 counterexample: on `myapp initialize -clean strength=2`
the handler IS invoked (the claim says the arity check fails and no
handler is invoked). -/
theorem claim_C7_counterexample :
    ((exampleApp.run argvB).getD []).any Event.isExec = true := by decide

/-- Claim C7 (amended): the token `strength=2` has no leading hyphen,
so it counts as the single positional argument; the arity check passes
(1 given, 1 required) and the handler is invoked with
args `["strength=2"]` and options `{clean: ""}`. -/
theorem claim_C7 :
    exampleApp.run argvB
      = some [Event.exec 0 (S "initialize") [S "strength=2"] [(S "clean", [])]] := by
  decide

/-- Claim C8 counterexample: on two 30-character words the code emits a
single flushed line of 61 characters containing a space — a line over
the width that is not a single long word, and not the two lines the
claimed flush-before-append algorithm would produce. -/
theorem claim_C8_counterexample :
    formatTextIntoLines (word30a ++ ' ' :: word30b) = [word30a ++ ' ' :: word30b]
      ∧ 55 < (word30a ++ ' ' :: word30b).length
      ∧ ' ' ∈ word30a ++ ' ' :: word30b
      ∧ word30a.length ≤ 55
      ∧ word30b.length ≤ 55
      ∧ formatTextIntoLines (word30a ++ ' ' :: word30b) ≠ [word30a, word30b] := by
  decide

/-- Claim C8 (amended): the wrap loop appends each word (with one
re-inserted space between consecutive words) and checks the width
afterwards: a line that, with the word just appended, exceeds 55
characters is flushed whole, word included, so a flushed line may
exceed the width even when it holds several short words; a non-empty
remainder is emitted at the end; words are never split. -/
theorem claim_C8 (text : Str) : formatTextIntoLines text = wrapSpecAmended text := by
  unfold formatTextIntoLines wrapSpecAmended
  exact wrapLoop_eq_groups (splitOnChar ' ' text) [] (Or.inl rfl)

/-- Claim C9: help rendering invokes no handler, leaves the `App` (its
commands, argument lists, options and global options) unchanged, and
rendering again on the resulting `App` gives the same output. -/
theorem claim_C9 (app : App) (name : Str) :
    (ShowHelpS app name).2 = app
      ∧ (((ShowHelpS app name).1.map Event.print).all fun e => !e.isExec) = true
      ∧ ShowHelpS (ShowHelpS app name).2 name = ShowHelpS app name :=
  ⟨rfl, all_print_no_exec _, rfl⟩

/-- Claim C10: `Run` panics (aborts on the `arg[0:1]` slice) exactly
when some token after the program name is the empty string; it is total
iff every such token is non-empty. -/
theorem claim_C10 (app : App) (argv : List Str) :
    app.run argv = none ↔ [] ∈ argv.drop 1 := by
  unfold App.run
  cases htok : tokenize (argv.drop 1) initTok with
  | none =>
    have hmem := (tokenize_none_iff _ initTok).mp htok
    rw [List.drop_one] at hmem
    simp [hmem]
  | some st =>
    have hmem : [] ∉ argv.drop 1 := by
      intro hm
      have hn := (tokenize_none_iff (argv.drop 1) initTok).mpr hm
      rw [htok] at hn
      exact Option.noConfusion hn
    rw [List.drop_one] at hmem
    cases hh : helpCond st <;> simp [hh, hmem]

/-- Claim C10 witness: an empty token after the program name makes the
run panic. -/
theorem claim_C10_witness :
    ([] : Str) ∈ ([S "myapp", ([] : Str)].drop 1)
      ∧ exampleApp.run [S "myapp", ([] : Str)] = none :=
  ⟨by decide, (claim_C10 exampleApp [S "myapp", ([] : Str)]).mpr (by decide)⟩
